import Mathlib

/-!
Verification of the plastron CSV import command
(plastron/commands/import.py).

The development shallowly embeds the import command's diff engine:
`build_lookup_index`, the per-property diff loop of `Command.__call__`
(direct and embedded modes), the cancellation pass, and the per-row
driver with its limit handling and counters.

Python strings are Lean `String`s; all the string operations the code
uses (`split` on a single character, `strip`, the regex
search for the index-key pattern) are re-implemented structurally so
that everything evaluates inside the kernel.  Python exceptions are an
explicit error type `PyErr` threaded through `Except`.
-/

namespace Plastron

instance {ε α : Type} [DecidableEq ε] [DecidableEq α] : DecidableEq (Except ε α) :=
  fun a b =>
    match a, b with
    | Except.ok x, Except.ok y =>
      if h : x = y then isTrue (by rw [h]) else isFalse (by intro hc; cases hc; exact h rfl)
    | Except.error x, Except.error y =>
      if h : x = y then isTrue (by rw [h]) else isFalse (by intro hc; cases hc; exact h rfl)
    | Except.ok _, Except.error _ => isFalse (by intro hc; cases hc)
    | Except.error _, Except.ok _ => isFalse (by intro hc; cases hc)

/-- Python exception values that the import command can raise. -/
inductive PyErr where
  | valueError : PyErr
  | typeError : PyErr
  | keyError : String → PyErr
  | keyErrorNat : Nat → PyErr
  | indexError : PyErr
  | attributeError : String → PyErr
deriving DecidableEq

/-- Modelled from the spec: an RDF term is either a literal (typed
string) or a reference (URI) to another resource; the term codec of a
property turns a plain string into the matching shape.  (The term and
property classes live in plastron.models / plastron.rdf, outside the
provided sources.) -/
inductive Term where
  | lit : String → Term
  | ref : String → Term
deriving DecidableEq

/-- Lookup in a Python-dict-like association list (first match). -/
def alookup {α : Type} (k : String) : List (String × α) → Option α
  | [] => none
  | p :: rest => if p.1 = k then some p.2 else alookup k rest

/-- Replace the value stored under a key (all occurrences; Python
attributes and dict keys are unique, so this matches assignment). -/
def aupdate {α : Type} (k : String) (v : α) : List (String × α) → List (String × α)
  | [] => []
  | p :: rest => if p.1 = k then (p.1, v) :: aupdate k v rest else p :: aupdate k v rest

/-- Lookup in an integer-keyed Python dict. -/
def nlookup {α : Type} (k : Nat) : List (Nat × α) → Option α
  | [] => none
  | p :: rest => if p.1 = k then some p.2 else nlookup k rest

/-- Python dict assignment for an integer key: replace or append. -/
def ndinsert {α : Type} (k : Nat) (v : α) : List (Nat × α) → List (Nat × α)
  | [] => [(k, v)]
  | p :: rest => if p.1 = k then (k, v) :: rest else p :: ndinsert k v rest

/-- Python dict assignment for a string key: replace or append. -/
def sdinsert {α : Type} (k : String) (v : α) : List (String × α) → List (String × α)
  | [] => [(k, v)]
  | p :: rest => if p.1 = k then (k, v) :: rest else p :: sdinsert k v rest

/-- Auxiliary loop of `splitOnChar`, mirroring Python str.split with a
one-character separator. -/
def splitOnCharAux (sep : Char) : List Char → List Char → List (List Char)
  | [], acc => [acc.reverse]
  | c :: rest, acc =>
    if c = sep then acc.reverse :: splitOnCharAux sep rest []
    else splitOnCharAux sep rest (c :: acc)

/-- Python str.split(sep) for a single-character separator: splits on
every occurrence; an empty string yields one empty piece. -/
def splitOnChar (sep : Char) (s : String) : List String :=
  (splitOnCharAux sep s.data []).map String.mk

/-- Python str.strip(): drop leading and trailing whitespace. -/
def stripped (s : String) : List Char :=
  ((s.data.dropWhile Char.isWhitespace).reverse.dropWhile Char.isWhitespace).reverse

/-- Line 85: `[v for v in row[header].split('|') if len(v.strip()) > 0]`. -/
def parseCellValues (cell : String) : List String :=
  (splitOnChar '|' cell).filter (fun v => 0 < (stripped v).length)

/-- A regex word character (ASCII fragment of Python's \w). -/
def isWordChar (c : Char) : Bool := c.isAlphanum || c = '_'

/-- Value of a digit string, as Python int() on the matched digits. -/
def digitsToNat (ds : List Char) : Nat :=
  ds.foldl (fun n c => n * 10 + (c.toNat - 48)) 0

/-- Try to match the pattern from line 39, a word run followed by a
bracketed digit run, at the head of the character list; on success
return the two capture groups (attribute name, position). -/
def matchKeyAt (l : List Char) : Option (String × Nat) :=
  match l.takeWhile isWordChar, l.dropWhile isWordChar with
  | [], _ => none
  | w :: ws, '[' :: rest2 =>
    match rest2.takeWhile Char.isDigit, rest2.dropWhile Char.isDigit with
    | [], _ => none
    | d :: ds, ']' :: _ => some (String.mk (w :: ws), digitsToNat (d :: ds))
    | _, _ => none
  | _, _ => none

/-- re.search for the index-key pattern: first position at which the
pattern matches.  Because a word run cannot stop early before a
non-word character, this scan is exactly the regex's leftmost match. -/
def reSearchKey : List Char → Option (String × Nat)
  | [] => none
  | c :: rest =>
    match matchKeyAt (c :: rest) with
    | some r => some r
    | none => reSearchKey rest

/-- Modelled from the spec: a property descriptor carries the
property's predicate URI and which term shape its codec produces
(reference or literal); plastron.models is outside the provided
sources. -/
structure PropSpec where
  predUri : String
  isRef : Bool
deriving DecidableEq

/-- Modelled from the spec: prop.get_term(value) converts a plain
string into the RDF term the property requires. -/
def PropSpec.get_term (p : PropSpec) (v : String) : Term :=
  if p.isRef then Term.ref v else Term.lit v

/-- An RDF triple as added to the delete / insert graphs. -/
structure Triple where
  subj : String
  pred : String
  objTerm : Term
deriving DecidableEq

/-- Modelled from the spec: an embedded object is a sub-resource with
its own URI and its own single-valued inner properties (its value
containers hold lists of strings). -/
structure EmbObj where
  uri : String
  innerAttrs : List (String × List String)
deriving DecidableEq

/-- Modelled from the spec: the in-memory resource produced by
model_class.from_graph — its URI, the value lists of its direct
(single-segment) attributes, and the embedded objects reachable from
each outer attribute, indexable by URI. -/
structure Item where
  uri : String
  directValues : List (String × List String)
  embedded : List (String × List EmbObj)
deriving DecidableEq

/-- The lookup index built per row: attribute name to a map from
position to the embedded object's URI (the model's aliasing of the
object reference: objects are resolved by URI in the item). -/
abbrev IndexMap := List (String × List (Nat × String))

/-- Resolve the embedded object currently held by the item under outer
attribute fa with URI u. -/
def objAt (item : Item) (fa u : String) : Option EmbObj :=
  ((alookup fa item.embedded).getD []).find? (fun o => o.uri = u)

/-- One entry of the loop body of build_lookup_index (lines 40 to 45):
split on the equals sign (ValueError when the unpack fails), regex
search (TypeError when m is None and m[1] is taken), then resolve
`getattr(item, attr)[URIRef(item.uri + uriref)]` and store it under
index[attr][i]. -/
def processIndexEntry (item : Item) (idx : IndexMap) (entry : String) :
    Except PyErr IndexMap :=
  match splitOnChar '=' entry with
  | [key, uriref] =>
    match reSearchKey key.data with
    | none => Except.error PyErr.typeError
    | some (attr, i) =>
      match alookup attr item.embedded with
      | none => Except.error (PyErr.attributeError attr)
      | some objs =>
        let target := item.uri ++ uriref
        match objs.find? (fun o => o.uri = target) with
        | none => Except.error (PyErr.keyError target)
        | some _ =>
          Except.ok (sdinsert attr (ndinsert i target ((alookup attr idx).getD [])) idx)
  | _ => Except.error PyErr.valueError

/-- build_lookup_index (lines 36 to 46): fold the entry handler over
the semicolon-separated descriptor entries, starting from an empty
defaultdict. -/
def build_lookup_index (item : Item) (index_string : String) : Except PyErr IndexMap :=
  (splitOnChar ';' index_string).foldlM (processIndexEntry item) []

/-- State threaded through one row's property loop: the in-memory item
and the two delta graphs (rdflib Graphs are triple sets). -/
structure RowState where
  item : Item
  dg : Finset Triple
  ig : Finset Triple

instance : DecidableEq RowState := fun a b =>
  decidable_of_iff (a.item = b.item ∧ a.dg = b.dg ∧ a.ig = b.ig)
    (by cases a; cases b; simp)

/-- Replace the first list element satisfying p (the object the Python
container lookup aliases). -/
def replaceFirst {α : Type} (p : α → Bool) (x : α) : List α → List α
  | [] => []
  | y :: rest => if p y then x :: rest else y :: replaceFirst p x rest

/-- Body of the embedded-mode loop (lines 111 to 119): resolve
index[first_attr][i] (KeyError on a missing position), read the
embedded object's single inner value (IndexError on values[0] of an
empty container), and when the new value differs overwrite it and add
one delete and one insert triple with the embedded object's URI as
subject. -/
def embStep (spec : PropSpec) (index : IndexMap) (fa na : String)
    (st : RowState) (i : Nat) (newValue : String) : Except PyErr RowState :=
  match alookup fa index with
  | none => Except.error (PyErr.keyError fa)
  | some posmap =>
    match nlookup i posmap with
    | none => Except.error (PyErr.keyErrorNat i)
    | some objUri =>
      match alookup fa st.item.embedded with
      | none => Except.error (PyErr.attributeError fa)
      | some objs =>
        match objs.find? (fun o => o.uri = objUri) with
        | none => Except.error (PyErr.keyError objUri)
        | some obj =>
          match alookup na obj.innerAttrs with
          | none => Except.error (PyErr.attributeError na)
          | some [] => Except.error PyErr.indexError
          | some (oldValue :: _) =>
            if newValue = oldValue then Except.ok st
            else
              Except.ok (RowState.mk
                (Item.mk st.item.uri st.item.directValues
                  (aupdate fa
                    (replaceFirst (fun o => o.uri = objUri)
                      (EmbObj.mk obj.uri (aupdate na [newValue] obj.innerAttrs)) objs)
                    st.item.embedded))
                (insert (Triple.mk obj.uri spec.predUri (spec.get_term oldValue)) st.dg)
                (insert (Triple.mk obj.uri spec.predUri (spec.get_term newValue)) st.ig))

/-- The `for i, new_value in enumerate(new_values)` loop of the
embedded branch. -/
def embLoop (spec : PropSpec) (index : IndexMap) (fa na : String) :
    RowState → Nat → List String → Except PyErr RowState
  | st, _, [] => Except.ok st
  | st, i, v :: rest =>
    match embStep spec index fa na st i v with
    | Except.error e => Except.error e
    | Except.ok st2 => embLoop spec index fa na st2 (i + 1) rest

/-- The triples one direct-mode set difference contributes: one triple
per member of the difference set. -/
def directTriples (subjectUri : String) (spec : PropSpec) (s : Finset String) :
    Finset Triple :=
  s.image (fun v => Triple.mk subjectUri spec.predUri (spec.get_term v))

/-- One iteration of the per-property loop (lines 82 to 119).
hp is the (header, attrs) pair.  Direct mode takes the two set
differences, adds the corresponding triples and replaces the in-memory
value list with the new list in row order; embedded mode runs embLoop
when the outer attribute is in the index and is a no-op otherwise;
a dotted path that does not split into exactly two segments fails the
Python tuple unpack with ValueError. -/
def processProp (specs : List (String × PropSpec)) (index : IndexMap)
    (row : List (String × String)) (st : RowState) (hp : String × String) :
    Except PyErr RowState :=
  match alookup hp.2 specs with
  | none => Except.error (PyErr.attributeError hp.2)
  | some spec =>
    match alookup hp.1 row with
    | none => Except.error (PyErr.keyError hp.1)
    | some cell =>
      let newValues := parseCellValues cell
      if hp.2.data.contains '.' = false then
        match alookup hp.2 st.item.directValues with
        | none => Except.error (PyErr.attributeError hp.2)
        | some oldValues =>
          Except.ok (RowState.mk
            (Item.mk st.item.uri (aupdate hp.2 newValues st.item.directValues)
              st.item.embedded)
            (st.dg ∪ directTriples st.item.uri spec (oldValues.toFinset \ newValues.toFinset))
            (st.ig ∪ directTriples st.item.uri spec (newValues.toFinset \ oldValues.toFinset)))
      else
        match splitOnChar '.' hp.2 with
        | [fa, na] =>
          if (alookup fa index).isSome then embLoop spec index fa na st 0 newValues
          else Except.ok st
        | _ => Except.error PyErr.valueError

/-- The cancellation pass (lines 121 to 125): remove from both graphs
every statement present in both. -/
def cancelPass (d i : Finset Triple) : Finset Triple × Finset Triple :=
  (d \ i, i \ d)

/-- Result of processing one row: the mutated item and the two
cancelled delta graphs. -/
structure RowResult where
  item : Item
  dg : Finset Triple
  ig : Finset Triple

instance : DecidableEq RowResult := fun a b =>
  decidable_of_iff (a.item = b.item ∧ a.dg = b.dg ∧ a.ig = b.ig)
    (by cases a; cases b; simp)

/-- One row's diff (lines 78 to 125): build the lookup index, fold the
property loop over all mapped properties starting from empty graphs,
then run the cancellation pass. -/
def diffRow (specs : List (String × PropSpec)) (pattrs : List (String × String))
    (item : Item) (row : List (String × String)) (indexString : String) :
    Except PyErr RowResult :=
  match build_lookup_index item indexString with
  | Except.error e => Except.error e
  | Except.ok index =>
    match pattrs.foldlM (processProp specs index row) (RowState.mk item ∅ ∅) with
    | Except.error e => Except.error e
    | Except.ok st =>
      Except.ok (RowResult.mk st.item (cancelPass st.dg st.ig).1 (cancelPass st.dg st.ig).2)

/-- Modelled from the spec: the repository collaborator's fetch
returns the current graph of a resource, from which from_graph builds
the in-memory item content (plastron.http and plastron.models are
outside the provided sources). -/
structure RepoItem where
  directValues : List (String × List String)
  embedded : List (String × List EmbObj)

/-- Driver state: the three counters of Command.__call__ plus a log of
repository fetches and submitted patches. -/
structure RunState where
  rowCount : Nat
  updatedCount : Nat
  unchangedCount : Nat
  fetched : List String
  patches : List (String × Finset Triple × Finset Triple)

instance : DecidableEq RunState := fun a b =>
  decidable_of_iff (a.rowCount = b.rowCount ∧ a.updatedCount = b.updatedCount ∧
      a.unchangedCount = b.unchangedCount ∧ a.fetched = b.fetched ∧ a.patches = b.patches)
    (by cases a; cases b; simp)

/-- One iteration of the row loop (lines 73 to 137): read the URI
cell, fetch the item, read the INDEX cell, diff the row, then bump
row_count and either submit one patch and bump updated_count (some
delta graph non-empty) or bump unchanged_count (both empty). -/
def processRowStep (specs : List (String × PropSpec)) (pattrs : List (String × String))
    (repo : String → RepoItem) (st : RunState) (row : List (String × String)) :
    Except PyErr RunState :=
  match alookup "URI" row with
  | none => Except.error (PyErr.keyError "URI")
  | some uri =>
    let content := repo uri
    let item := Item.mk uri content.directValues content.embedded
    match alookup "INDEX" row with
    | none => Except.error (PyErr.keyError "INDEX")
    | some istr =>
      match diffRow specs pattrs item row istr with
      | Except.error e => Except.error e
      | Except.ok res =>
        if 0 < res.dg.card ∨ 0 < res.ig.card then
          Except.ok (RunState.mk (st.rowCount + 1) (st.updatedCount + 1)
            st.unchangedCount (st.fetched ++ [uri])
            (st.patches ++ [(uri, res.dg, res.ig)]))
        else
          Except.ok (RunState.mk (st.rowCount + 1) st.updatedCount
            (st.unchangedCount + 1) (st.fetched ++ [uri]) st.patches)

/-- Line 69's guard: stop when a limit is set and the one-based row
number exceeds it. -/
def limitExceeded : Option Nat → Nat → Bool
  | none, _ => false
  | some l, n => l < n

/-- The row loop of Command.__call__ (lines 68 to 137): enumerate rows
from 1, stop at the limit, otherwise process the row and continue. -/
def runRows (specs : List (String × PropSpec)) (pattrs : List (String × String))
    (repo : String → RepoItem) (limit : Option Nat) :
    RunState → Nat → List (List (String × String)) → Except PyErr RunState
  | st, _, [] => Except.ok st
  | st, n, row :: rest =>
    if limitExceeded limit n then Except.ok st
    else
      match processRowStep specs pattrs repo st row with
      | Except.error e => Except.error e
      | Except.ok st2 => runRows specs pattrs repo limit st2 (n + 1) rest

/-- Command.__call__ from the first row, with zeroed counters. -/
def commandCall (specs : List (String × PropSpec)) (pattrs : List (String × String))
    (repo : String → RepoItem) (limit : Option Nat)
    (rows : List (List (String × String))) : Except PyErr RunState :=
  runRows specs pattrs repo limit (RunState.mk 0 0 0 [] []) 1 rows

/-! Helper lemmas about the association-list and container operations. -/

theorem get_term_injective (spec : PropSpec) : Function.Injective spec.get_term := by
  intro a b h
  cases hb : spec.isRef <;> simp [PropSpec.get_term, hb] at h <;> exact h

theorem directTriples_card (u : String) (spec : PropSpec) (s : Finset String) :
    (directTriples u spec s).card = s.card := by
  unfold directTriples
  apply Finset.card_image_of_injective
  intro a b h
  simp only [Triple.mk.injEq] at h
  exact get_term_injective spec h.2.2

theorem alookup_aupdate_self {α : Type} (k : String) (v : α) (l : List (String × α)) :
    alookup k (aupdate k v l) = (alookup k l).map (fun _ => v) := by
  induction l with
  | nil => rfl
  | cons p rest ih =>
    by_cases h : p.1 = k
    · simp [alookup, aupdate, h]
    · simp [alookup, aupdate, h, ih]

theorem alookup_aupdate_ne {α : Type} {k k2 : String} (v : α) (l : List (String × α))
    (h : k2 ≠ k) : alookup k (aupdate k2 v l) = alookup k l := by
  induction l with
  | nil => rfl
  | cons p rest ih =>
    obtain ⟨pk, pv⟩ := p
    by_cases hp : pk = k2
    · have hne : pk ≠ k := by rw [hp]; exact h
      simp [alookup, aupdate, hp, hne, h, ih]
    · by_cases hk : pk = k
      · subst hk
        simp [alookup, aupdate, hp]
      · simp [alookup, aupdate, hp, hk, ih]

theorem keys_aupdate {α : Type} (k : String) (v : α) (l : List (String × α)) :
    (aupdate k v l).map Prod.fst = l.map Prod.fst := by
  induction l with
  | nil => rfl
  | cons p rest ih =>
    by_cases h : p.1 = k <;> simp [aupdate, h, ih]

theorem aupdate_aupdate_same {α : Type} (k : String) (v : α) (l : List (String × α)) :
    aupdate k v (aupdate k v l) = aupdate k v l := by
  induction l with
  | nil => rfl
  | cons p rest ih =>
    by_cases h : p.1 = k <;> simp [aupdate, h, ih]

theorem aupdate_of_not_mem {α : Type} (k : String) (v : α) (l : List (String × α))
    (h : k ∉ l.map Prod.fst) : aupdate k v l = l := by
  induction l with
  | nil => rfl
  | cons p rest ih =>
    simp only [List.map_cons, List.mem_cons] at h
    push_neg at h
    simp [aupdate, Ne.symm h.1, ih h.2]

theorem aupdate_eq_self_of_lookup {α : Type} {k : String} {v : α} {l : List (String × α)}
    (hnd : (l.map Prod.fst).Nodup) (h : alookup k l = some v) : aupdate k v l = l := by
  induction l with
  | nil => cases h
  | cons p rest ih =>
    obtain ⟨pk, pv⟩ := p
    simp only [List.map_cons, List.nodup_cons] at hnd
    by_cases hp : pk = k
    · simp only [alookup, if_pos hp] at h
      cases h
      simp [aupdate, hp, aupdate_of_not_mem _ _ _ (hp ▸ hnd.1)]
    · simp only [alookup, if_neg hp] at h
      simp [aupdate, hp, ih hnd.2 h]

theorem find?_replaceFirst_same {α : Type} (p : α → Bool) (x : α) (l : List α)
    (hx : p x = true) :
    (replaceFirst p x l).find? p = ((l.find? p).map (fun _ => x)) := by
  induction l with
  | nil => rfl
  | cons y rest ih =>
    by_cases h : p y = true
    · simp [replaceFirst, h, List.find?, hx]
    · simp only [Bool.not_eq_true] at h
      simp [replaceFirst, h, List.find?, ih]

theorem find?_replaceFirst_ne {α : Type} (p q : α → Bool) (x : α) (l : List α)
    (hx : q x = false) (hpq : ∀ y, p y = true → q y = false) :
    (replaceFirst p x l).find? q = l.find? q := by
  induction l with
  | nil => rfl
  | cons y rest ih =>
    by_cases h : p y = true
    · simp [replaceFirst, h, List.find?, hx, hpq y h]
    · simp only [Bool.not_eq_true] at h
      by_cases hq : q y = true
      · simp [replaceFirst, h, List.find?, hq]
      · simp only [Bool.not_eq_true] at hq
        simp [replaceFirst, h, List.find?, hq, ih]

theorem uris_replaceFirst (u : String) (x : EmbObj) (l : List EmbObj) (hx : x.uri = u) :
    (replaceFirst (fun o => o.uri = u) x l).map EmbObj.uri = l.map EmbObj.uri := by
  induction l with
  | nil => rfl
  | cons y rest ih =>
    by_cases h : y.uri = u
    · simp [replaceFirst, h, hx]
    · simp [replaceFirst, h, ih]

/-! Claim theorems. -/

/-- Claim C1: for a direct-mode property (single-segment attribute
path), the triples added to the delete graph are exactly one triple
(resource URI, predicate URI, term of v) for each string v in
set(old) minus set(new), and the triples added to the insert graph are
exactly one such triple for each v in set(new) minus set(old);
duplicates collapse because the diff is taken on the toFinset of the
two value lists, and the one-per-value count is the two card
equalities. -/
theorem C1_direct_set_difference
    (specs : List (String × PropSpec)) (index : IndexMap)
    (row : List (String × String)) (st : RowState) (header attrs : String)
    (spec : PropSpec) (cell : String) (oldValues : List String)
    (hspec : alookup attrs specs = some spec)
    (hcell : alookup header row = some cell)
    (hdot : '.' ∉ attrs.data)
    (hold : alookup attrs st.item.directValues = some oldValues) :
    processProp specs index row st (header, attrs) =
      Except.ok (RowState.mk
        (Item.mk st.item.uri (aupdate attrs (parseCellValues cell) st.item.directValues)
          st.item.embedded)
        (st.dg ∪ directTriples st.item.uri spec
          (oldValues.toFinset \ (parseCellValues cell).toFinset))
        (st.ig ∪ directTriples st.item.uri spec
          ((parseCellValues cell).toFinset \ oldValues.toFinset))) ∧
    (directTriples st.item.uri spec
        (oldValues.toFinset \ (parseCellValues cell).toFinset)).card =
      (oldValues.toFinset \ (parseCellValues cell).toFinset).card ∧
    (directTriples st.item.uri spec
        ((parseCellValues cell).toFinset \ oldValues.toFinset)).card =
      ((parseCellValues cell).toFinset \ oldValues.toFinset).card := by
  refine ⟨?_, directTriples_card _ _ _, directTriples_card _ _ _⟩
  simp [processProp, hspec, hcell, hdot, hold]

theorem diffRow_eq (specs : List (String × PropSpec)) (pattrs : List (String × String))
    (item : Item) (row : List (String × String)) (istr : String) (index : IndexMap)
    (hb : build_lookup_index item istr = Except.ok index) :
    diffRow specs pattrs item row istr =
      match pattrs.foldlM (processProp specs index row) (RowState.mk item ∅ ∅) with
      | Except.error e => Except.error e
      | Except.ok st => Except.ok (RowResult.mk st.item (cancelPass st.dg st.ig).1
          (cancelPass st.dg st.ig).2) := by
  unfold diffRow
  rw [hb]

/-- Claim C2: after the cancellation pass that follows processing all
properties of a row, every triple that was in both delta graphs has
been removed from both, and the two final graphs are disjoint. -/
theorem C2_cancellation_disjoint
    (specs : List (String × PropSpec)) (pattrs : List (String × String))
    (item : Item) (row : List (String × String)) (istr : String)
    (index : IndexMap) (st : RowState) (res : RowResult)
    (hb : build_lookup_index item istr = Except.ok index)
    (hf : pattrs.foldlM (processProp specs index row) (RowState.mk item ∅ ∅) =
      Except.ok st)
    (h : diffRow specs pattrs item row istr = Except.ok res) :
    (∀ t, t ∈ st.dg → t ∈ st.ig → t ∉ res.dg ∧ t ∉ res.ig) ∧
    res.dg ∩ res.ig = ∅ := by
  rw [diffRow_eq specs pattrs item row istr index hb, hf] at h
  have hres := Except.ok.inj h
  subst hres
  constructor
  · intro t hd hi
    constructor
    · simp [cancelPass, hd, hi]
    · simp [cancelPass, hd, hi]
  · ext t
    simp only [cancelPass, Finset.mem_inter, Finset.mem_sdiff, Finset.not_mem_empty,
      iff_false]
    rintro ⟨⟨h1, h2⟩, h3, h4⟩
    exact h2 h3

/-- Claim C3: in embedded mode, for a position i of the new candidate
list that resolves through the index to an embedded object: when the
new value differs from the object's current single inner value, the
inner value is overwritten in memory (the updated object is observable
with inner value list [newValue]) and exactly one delete triple (old
value) and one insert triple (new value) are added, both with the
embedded object's own URI as subject; when the values are equal the
state is returned unchanged. -/
theorem C3_embedded_update
    (spec : PropSpec) (index : IndexMap) (fa na : String) (st : RowState)
    (i : Nat) (newValue : String) (posmap : List (Nat × String))
    (objUri : String) (objs : List EmbObj) (obj : EmbObj)
    (oldValue : String) (rest : List String)
    (hpos : alookup fa index = some posmap)
    (hi : nlookup i posmap = some objUri)
    (hobjs : alookup fa st.item.embedded = some objs)
    (hobj : objs.find? (fun o => o.uri = objUri) = some obj)
    (hinner : alookup na obj.innerAttrs = some (oldValue :: rest)) :
    (newValue ≠ oldValue → ∃ st2,
      embStep spec index fa na st i newValue = Except.ok st2 ∧
      st2.dg = insert (Triple.mk obj.uri spec.predUri (spec.get_term oldValue)) st.dg ∧
      st2.ig = insert (Triple.mk obj.uri spec.predUri (spec.get_term newValue)) st.ig ∧
      st2.item.uri = st.item.uri ∧
      st2.item.directValues = st.item.directValues ∧
      (∃ obj2, objAt st2.item fa objUri = some obj2 ∧
        alookup na obj2.innerAttrs = some [newValue])) ∧
    (newValue = oldValue → embStep spec index fa na st i newValue = Except.ok st) := by
  have hpu : obj.uri = objUri := by
    have := List.find?_some hobj
    simpa using this
  constructor
  · intro hne
    refine ⟨RowState.mk
        (Item.mk st.item.uri st.item.directValues
          (aupdate fa (replaceFirst (fun o => o.uri = objUri)
            (EmbObj.mk obj.uri (aupdate na [newValue] obj.innerAttrs)) objs)
            st.item.embedded))
        (insert (Triple.mk obj.uri spec.predUri (spec.get_term oldValue)) st.dg)
        (insert (Triple.mk obj.uri spec.predUri (spec.get_term newValue)) st.ig),
      ?_, rfl, rfl, rfl, rfl, ?_⟩
    · simp [embStep, hpos, hi, hobjs, hobj, hinner, hne]
    · refine ⟨EmbObj.mk obj.uri (aupdate na [newValue] obj.innerAttrs), ?_, ?_⟩
      · unfold objAt
        dsimp only
        rw [alookup_aupdate_self, hobjs]
        dsimp only [Option.map, Option.getD]
        rw [find?_replaceFirst_same _ _ _ (by simp [hpu]), hobj]
        rfl
      · dsimp only
        rw [alookup_aupdate_self, hinner]
        rfl
  · intro heq
    simp [embStep, hpos, hi, hobjs, hobj, hinner, heq]

/-- Claim C6 counterexample: on an empty descriptor string the index
builder does not return an empty index; the single empty entry
produced by splitting on the semicolon fails the key=value unpack and
raises ValueError. -/
theorem C6_counterexample :
    build_lookup_index (Item.mk "http://x/r1" [] []) "" ≠ Except.ok ([] : IndexMap) ∧
    build_lookup_index (Item.mk "http://x/r1" [] []) "" = Except.error PyErr.valueError := by
  exact ⟨by decide, by decide⟩

/-- Claim C6 amended: for every parent resource, calling the index
builder with an empty descriptor string raises ValueError (the empty
string splits into one empty entry, whose split on the equals sign
yields a single piece and fails the two-element unpack); it does not
return an empty index. -/
theorem C6_empty_descriptor_valueerror (item : Item) :
    build_lookup_index item "" = Except.error PyErr.valueError := rfl

/-- Claim C7 counterexample: with one indexed embedded object and two
new values for part.label, processing the row fails with KeyError(1)
from the positional dict lookup, not with IndexError. -/
theorem C7_counterexample :
    diffRow [("part.label", PropSpec.mk "dc:label" false)] [("Part Label", "part.label")]
      (Item.mk "http://x/r1" []
        [("part", [EmbObj.mk "http://x/r1/p1" [("label", ["L1"])]])])
      [("Part Label", "M1|M2")] "part[0]=/p1" =
      Except.error (PyErr.keyErrorNat 1) ∧
    PyErr.keyErrorNat 1 ≠ PyErr.indexError := by
  exact ⟨by decide, by decide⟩

/-- Claim C7 amended: in embedded mode, a position of the new
candidate list with no entry in the positional index map fails with
KeyError carrying that position (a Python dict lookup on a missing
integer key), not IndexError, and the error propagates uncaught out of
the embedded loop. -/
theorem C7_keyerror_on_overflow
    (spec : PropSpec) (index : IndexMap) (fa na : String) (st : RowState)
    (i : Nat) (newValue : String) (vs : List String) (posmap : List (Nat × String))
    (hpos : alookup fa index = some posmap)
    (hi : nlookup i posmap = none) :
    embStep spec index fa na st i newValue = Except.error (PyErr.keyErrorNat i) ∧
    embLoop spec index fa na st i (newValue :: vs) =
      Except.error (PyErr.keyErrorNat i) := by
  have h1 : embStep spec index fa na st i newValue =
      Except.error (PyErr.keyErrorNat i) := by
    simp [embStep, hpos, hi]
  exact ⟨h1, by simp [embLoop, h1]⟩

/-- Claim C8: for a row whose diff succeeds, if both cancelled delta
graphs are empty then no patch is submitted and the row is counted
unchanged; if at least one is non-empty then exactly one patch is
submitted and the row is counted updated. -/
theorem C8_row_outcome
    (specs : List (String × PropSpec)) (pattrs : List (String × String))
    (repo : String → RepoItem) (st : RunState) (row : List (String × String))
    (uri istr : String) (res : RowResult)
    (huri : alookup "URI" row = some uri)
    (hidx : alookup "INDEX" row = some istr)
    (hdiff : diffRow specs pattrs
      (Item.mk uri (repo uri).directValues (repo uri).embedded) row istr =
      Except.ok res) :
    (res.dg = ∅ ∧ res.ig = ∅ →
      processRowStep specs pattrs repo st row =
        Except.ok (RunState.mk (st.rowCount + 1) st.updatedCount (st.unchangedCount + 1)
          (st.fetched ++ [uri]) st.patches)) ∧
    (res.dg ≠ ∅ ∨ res.ig ≠ ∅ →
      processRowStep specs pattrs repo st row =
        Except.ok (RunState.mk (st.rowCount + 1) (st.updatedCount + 1) st.unchangedCount
          (st.fetched ++ [uri]) (st.patches ++ [(uri, res.dg, res.ig)]))) := by
  constructor
  · rintro ⟨h1, h2⟩
    simp [processRowStep, huri, hidx, hdiff, h1, h2]
  · intro h12
    have hcard : 0 < res.dg.card ∨ 0 < res.ig.card := by
      rcases h12 with h | h
      · exact Or.inl (Finset.card_pos.mpr (Finset.nonempty_iff_ne_empty.mpr h))
      · exact Or.inr (Finset.card_pos.mpr (Finset.nonempty_iff_ne_empty.mpr h))
    simp [processRowStep, huri, hidx, hdiff, hcard]
    intro hdg
    rcases h12 with h | h
    · exact absurd hdg h
    · exact h

/-- All inner values currently held by the embedded objects of an
outer attribute, in container order. -/
def embInnerValues (item : Item) (fa na : String) : List String :=
  ((alookup fa item.embedded).getD []).foldr
    (fun o acc => (alookup na o.innerAttrs).getD [] ++ acc) []

/-- Claim C4 counterexample: with two indexed embedded objects holding
label values L1 and L2 and a row cell supplying the single new value X
for part.label, only position 0 is overwritten, so after the row the
in-memory value set of the property is the set of X and L2, which is
not the parsed new value set (the set of X alone). -/
theorem C4_counterexample :
    (diffRow [("part.label", PropSpec.mk "dc:label" false)] [("Part Label", "part.label")]
        (Item.mk "http://x/r1" []
          [("part", [EmbObj.mk "http://x/r1/p1" [("label", ["L1"])],
                     EmbObj.mk "http://x/r1/p2" [("label", ["L2"])]])])
        [("Part Label", "X")] "part[0]=/p1;part[1]=/p2").toOption.map
      (fun res => (embInnerValues res.item "part" "label").toFinset) ≠
    some (parseCellValues "X").toFinset := by decide

/-- Claim C4 amended: for direct-mode properties the invariant holds
as stated — the value container is replaced by the new list in the
order it appears in the row, so the in-memory value set afterwards
equals the parsed new value set; for embedded-mode properties only the
embedded objects at positions below the length of the new value list
are overwritten, so values held at other positions survive and the
set equality can fail (see the counterexample). -/
theorem C4_direct_value_replacement
    (specs : List (String × PropSpec)) (index : IndexMap)
    (row : List (String × String)) (st : RowState) (header attrs : String)
    (spec : PropSpec) (cell : String) (oldValues : List String) (st2 : RowState)
    (hspec : alookup attrs specs = some spec)
    (hcell : alookup header row = some cell)
    (hdot : '.' ∉ attrs.data)
    (hold : alookup attrs st.item.directValues = some oldValues)
    (hrun : processProp specs index row st (header, attrs) = Except.ok st2) :
    alookup attrs st2.item.directValues = some (parseCellValues cell) ∧
    ∃ l, alookup attrs st2.item.directValues = some l ∧
      l.toFinset = (parseCellValues cell).toFinset := by
  have hstep : processProp specs index row st (header, attrs) =
      Except.ok (RowState.mk
        (Item.mk st.item.uri (aupdate attrs (parseCellValues cell) st.item.directValues)
          st.item.embedded)
        (st.dg ∪ directTriples st.item.uri spec
          (oldValues.toFinset \ (parseCellValues cell).toFinset))
        (st.ig ∪ directTriples st.item.uri spec
          ((parseCellValues cell).toFinset \ oldValues.toFinset))) := by
    simp [processProp, hspec, hcell, hdot, hold]
  rw [hstep] at hrun
  have h2 := Except.ok.inj hrun
  subst h2
  have hl : alookup attrs
      (aupdate attrs (parseCellValues cell) st.item.directValues) =
      some (parseCellValues cell) := by
    rw [alookup_aupdate_self, hold]
    rfl
  exact ⟨hl, parseCellValues cell, hl, rfl⟩

theorem processRowStep_eq (specs : List (String × PropSpec))
    (pattrs : List (String × String)) (repo : String → RepoItem) (st : RunState)
    (row : List (String × String)) (uri istr : String)
    (huri : alookup "URI" row = some uri)
    (hidx : alookup "INDEX" row = some istr) :
    processRowStep specs pattrs repo st row =
      match diffRow specs pattrs
          (Item.mk uri (repo uri).directValues (repo uri).embedded) row istr with
      | Except.error e => Except.error e
      | Except.ok res =>
        if 0 < res.dg.card ∨ 0 < res.ig.card then
          Except.ok (RunState.mk (st.rowCount + 1) (st.updatedCount + 1)
            st.unchangedCount (st.fetched ++ [uri])
            (st.patches ++ [(uri, res.dg, res.ig)]))
        else
          Except.ok (RunState.mk (st.rowCount + 1) st.updatedCount
            (st.unchangedCount + 1) (st.fetched ++ [uri]) st.patches) := by
  unfold processRowStep
  rw [huri, hidx]

theorem processRowStep_delta (specs : List (String × PropSpec))
    (pattrs : List (String × String)) (repo : String → RepoItem) (st : RunState)
    (row : List (String × String)) (st2 : RunState)
    (h : processRowStep specs pattrs repo st row = Except.ok st2) :
    st2.rowCount = st.rowCount + 1 ∧
    st2.fetched.length = st.fetched.length + 1 ∧
    st2.updatedCount + st2.unchangedCount = st.updatedCount + st.unchangedCount + 1 := by
  cases h1 : alookup "URI" row with
  | none => simp [processRowStep, h1] at h
  | some uri =>
    cases h2 : alookup "INDEX" row with
    | none => simp [processRowStep, h1, h2] at h
    | some istr =>
      rw [processRowStep_eq specs pattrs repo st row uri istr h1 h2] at h
      cases h3 : diffRow specs pattrs
          (Item.mk uri (repo uri).directValues (repo uri).embedded) row istr with
      | error e =>
        simp only [h3] at h
        cases h
      | ok res =>
        simp only [h3] at h
        by_cases h4 : 0 < res.dg.card ∨ 0 < res.ig.card
        · rw [if_pos h4] at h
          cases h
          simp
          omega
        · rw [if_neg h4] at h
          cases h
          simp
          omega

theorem runRows_limit_count (specs : List (String × PropSpec))
    (pattrs : List (String × String)) (repo : String → RepoItem) (l : Nat) :
    ∀ (rows : List (List (String × String))) (st : RunState) (n : Nat) (st2 : RunState),
      runRows specs pattrs repo (some l) st n rows = Except.ok st2 →
      st2.rowCount = st.rowCount + min (l + 1 - n) rows.length ∧
      st2.fetched.length = st.fetched.length + min (l + 1 - n) rows.length := by
  intro rows
  induction rows with
  | nil =>
    intro st n st2 h
    simp only [runRows] at h
    cases h
    simp
  | cons row rest ih =>
    intro st n st2 h
    by_cases hl : l < n
    · have hle : limitExceeded (some l) n = true := by
        simp [limitExceeded, hl]
      simp only [runRows, hle, if_true] at h
      cases h
      have h0 : l + 1 - n = 0 := by omega
      simp [h0]
    · have hle : limitExceeded (some l) n = false := by
        simp only [limitExceeded, decide_eq_false_iff_not]
        omega
      simp only [runRows, hle, Bool.false_eq_true, if_false] at h
      cases hs : processRowStep specs pattrs repo st row with
      | error e =>
        simp only [hs] at h
        cases h
      | ok stMid =>
        simp only [hs] at h
        obtain ⟨hr, hfl, _⟩ := processRowStep_delta specs pattrs repo st row stMid hs
        obtain ⟨ih1, ih2⟩ := ih stMid (n + 1) st2 h
        constructor
        · simp only [List.length_cons]
          omega
        · simp only [List.length_cons]
          omega

/-- Claim C9: when a row limit N is given, a successful run processes
exactly min(N, total rows) rows: the final row counter equals that
minimum and exactly that many repository fetches were performed, so
rows beyond the limit are never fetched and never counted. -/
theorem C9_row_limit (specs : List (String × PropSpec))
    (pattrs : List (String × String)) (repo : String → RepoItem) (n : Nat)
    (rows : List (List (String × String))) (st2 : RunState)
    (h : commandCall specs pattrs repo (some n) rows = Except.ok st2) :
    st2.rowCount = min n rows.length ∧ st2.fetched.length = min n rows.length := by
  have h2 : runRows specs pattrs repo (some n) (RunState.mk 0 0 0 [] []) 1 rows =
      Except.ok st2 := h
  obtain ⟨h3, h4⟩ := runRows_limit_count specs pattrs repo n rows
    (RunState.mk 0 0 0 [] []) 1 st2 h2
  constructor
  · rw [h3]
    simp
  · rw [h4]
    simp

theorem runRows_counter_invariant (specs : List (String × PropSpec))
    (pattrs : List (String × String)) (repo : String → RepoItem) (limit : Option Nat) :
    ∀ (rows : List (List (String × String))) (st : RunState) (n : Nat) (st2 : RunState),
      runRows specs pattrs repo limit st n rows = Except.ok st2 →
      st.rowCount = st.updatedCount + st.unchangedCount →
      st2.rowCount = st2.updatedCount + st2.unchangedCount := by
  intro rows
  induction rows with
  | nil =>
    intro st n st2 h hinv
    simp only [runRows] at h
    cases h
    exact hinv
  | cons row rest ih =>
    intro st n st2 h hinv
    by_cases hle : limitExceeded limit n = true
    · simp only [runRows, hle, if_true] at h
      cases h
      exact hinv
    · simp only [Bool.not_eq_true] at hle
      simp only [runRows, hle, Bool.false_eq_true, if_false] at h
      cases hs : processRowStep specs pattrs repo st row with
      | error e =>
        simp only [hs] at h
        cases h
      | ok stMid =>
        simp only [hs] at h
        obtain ⟨hr, _, hu⟩ := processRowStep_delta specs pattrs repo st row stMid hs
        exact ih stMid (n + 1) st2 h (by omega)

/-- Claim C10: the driver's counters satisfy row_count = updated_count
+ unchanged_count after every completed row and hence at the end of
every run: any successful run of the row loop started from a state
satisfying the invariant (in particular commandCall's all-zero initial
state) ends in a state satisfying it. -/
theorem C10_counter_invariant (specs : List (String × PropSpec))
    (pattrs : List (String × String)) (repo : String → RepoItem) (limit : Option Nat)
    (rows : List (List (String × String))) (st : RunState) (n : Nat) (st2 : RunState)
    (hrun : runRows specs pattrs repo limit st n rows = Except.ok st2)
    (hinv : st.rowCount = st.updatedCount + st.unchangedCount) :
    st2.rowCount = st2.updatedCount + st2.unchangedCount :=
  runRows_counter_invariant specs pattrs repo limit rows st n st2 hrun hinv

/-! Concrete example inputs used by the witnesses. -/

def specsW : List (String × PropSpec) :=
  [("title", PropSpec.mk "dc:title" false), ("part.label", PropSpec.mk "dc:label" false)]

def pattrsW : List (String × String) := [("Title", "title")]

def itemW : Item :=
  Item.mk "u" [("title", ["A"])] [("part", [EmbObj.mk "u/p" [("label", ["L1"])]])]

def rowW : List (String × String) :=
  [("URI", "u"), ("INDEX", "part[0]=/p"), ("Title", "A")]

def repoW : String → RepoItem :=
  fun _ => RepoItem.mk [("title", ["A"])] [("part", [EmbObj.mk "u/p" [("label", ["L1"])]])]

def indexW : IndexMap := [("part", [(0, "u/p")])]

def rowsW : List (List (String × String)) := [rowW, rowW]

def stW2 : RowState :=
  RowState.mk (Item.mk "u" [("title", ["B"])]
      [("part", [EmbObj.mk "u/p" [("label", ["L1"])]])])
    {Triple.mk "u" "dc:title" (Term.lit "A")}
    {Triple.mk "u" "dc:title" (Term.lit "B")}

def resW2 : RowResult :=
  RowResult.mk (Item.mk "u" [("title", ["B"])]
      [("part", [EmbObj.mk "u/p" [("label", ["L1"])]])])
    {Triple.mk "u" "dc:title" (Term.lit "A")}
    {Triple.mk "u" "dc:title" (Term.lit "B")}

def stW4 : RowState :=
  RowState.mk (Item.mk "u" [("title", ["A", "B"])]
      [("part", [EmbObj.mk "u/p" [("label", ["L1"])]])])
    ∅ {Triple.mk "u" "dc:title" (Term.lit "B")}

theorem C1_witness :
    (directTriples "u" (PropSpec.mk "dc:title" false)
        ((["A"] : List String).toFinset \ (parseCellValues "A|B").toFinset)).card =
      ((["A"] : List String).toFinset \ (parseCellValues "A|B").toFinset).card :=
  (C1_direct_set_difference specsW indexW [("Title", "A|B")] (RowState.mk itemW ∅ ∅)
    "Title" "title" (PropSpec.mk "dc:title" false) "A|B" ["A"]
    (by decide) (by decide) (by decide) (by decide)).2.1

theorem C2_witness : resW2.dg ∩ resW2.ig = ∅ :=
  (C2_cancellation_disjoint specsW pattrsW itemW [("Title", "B")] "part[0]=/p"
    indexW stW2 resW2 (by decide) (by decide) (by decide)).2

theorem C3_witness :
    embStep (PropSpec.mk "dc:label" false) indexW "part" "label"
      (RowState.mk itemW ∅ ∅) 0 "L1" = Except.ok (RowState.mk itemW ∅ ∅) :=
  (C3_embedded_update (PropSpec.mk "dc:label" false) indexW "part" "label"
    (RowState.mk itemW ∅ ∅) 0 "L1" [(0, "u/p")] "u/p"
    [EmbObj.mk "u/p" [("label", ["L1"])]] (EmbObj.mk "u/p" [("label", ["L1"])])
    "L1" [] (by decide) (by decide) (by decide) (by decide) (by decide)).2 rfl

theorem C4_witness :
    alookup "title" stW4.item.directValues = some (parseCellValues "A|B") :=
  (C4_direct_value_replacement specsW indexW [("Title", "A|B")] (RowState.mk itemW ∅ ∅)
    "Title" "title" (PropSpec.mk "dc:title" false) "A|B" ["A"] stW4
    (by decide) (by decide) (by decide) (by decide) (by decide)).1

theorem C7_witness :
    embStep (PropSpec.mk "dc:label" false) indexW "part" "label"
      (RowState.mk itemW ∅ ∅) 1 "M2" = Except.error (PyErr.keyErrorNat 1) :=
  (C7_keyerror_on_overflow (PropSpec.mk "dc:label" false) indexW "part" "label"
    (RowState.mk itemW ∅ ∅) 1 "M2" [] [(0, "u/p")] (by decide) (by decide)).1

theorem C8_witness :
    processRowStep specsW pattrsW repoW (RunState.mk 0 0 0 [] []) rowW =
      Except.ok (RunState.mk 1 0 1 ["u"] []) :=
  (C8_row_outcome specsW pattrsW repoW (RunState.mk 0 0 0 [] []) rowW "u" "part[0]=/p"
    (RowResult.mk itemW ∅ ∅) (by decide) (by decide) (by decide)).1 ⟨rfl, rfl⟩

theorem C9_witness :
    (RunState.mk 1 0 1 ["u"] []).rowCount = min 1 rowsW.length ∧
    (RunState.mk 1 0 1 ["u"] []).fetched.length = min 1 rowsW.length :=
  C9_row_limit specsW pattrsW repoW 1 rowsW (RunState.mk 1 0 1 ["u"] []) (by decide)

theorem C10_witness :
    (RunState.mk 1 0 1 ["u"] []).rowCount =
      (RunState.mk 1 0 1 ["u"] []).updatedCount +
        (RunState.mk 1 0 1 ["u"] []).unchangedCount :=
  C10_counter_invariant specsW pattrsW repoW (some 1) rowsW (RunState.mk 0 0 0 [] []) 1
    (RunState.mk 1 0 1 ["u"] []) (by decide) rfl

/-! Infrastructure for the idempotence claim. -/

/-- Join character lists with a separator (inverse of splitOnCharAux). -/
def joinSep (sep : Char) : List (List Char) → List Char
  | [] => []
  | [p] => p
  | p :: ps => p ++ sep :: joinSep sep ps

theorem splitOnCharAux_ne_nil (sep : Char) :
    ∀ (l acc : List Char), splitOnCharAux sep l acc ≠ [] := by
  intro l
  induction l with
  | nil => intro acc; simp [splitOnCharAux]
  | cons c rest ih =>
    intro acc
    by_cases h : c = sep
    · simp [splitOnCharAux, h]
    · simp only [splitOnCharAux, if_neg h]
      exact ih (c :: acc)

theorem joinSep_cons_of_ne_nil (sep : Char) (p : List Char) (ps : List (List Char))
    (h : ps ≠ []) : joinSep sep (p :: ps) = p ++ sep :: joinSep sep ps := by
  cases ps with
  | nil => exact absurd rfl h
  | cons q qs => rfl

theorem splitOnCharAux_join (sep : Char) :
    ∀ (l acc : List Char), joinSep sep (splitOnCharAux sep l acc) = acc.reverse ++ l := by
  intro l
  induction l with
  | nil => intro acc; simp [splitOnCharAux, joinSep]
  | cons c rest ih =>
    intro acc
    by_cases h : c = sep
    · simp only [splitOnCharAux, if_pos h]
      rw [joinSep_cons_of_ne_nil sep _ _ (splitOnCharAux_ne_nil sep rest [])]
      rw [ih []]
      simp [h]
    · simp only [splitOnCharAux, if_neg h]
      rw [ih (c :: acc)]
      simp

theorem splitOnChar_eq_two (sep : Char) (s x y : String)
    (h : splitOnChar sep s = [x, y]) : s.data = x.data ++ sep :: y.data := by
  unfold splitOnChar at h
  have hjoin := splitOnCharAux_join sep s.data []
  cases hp : splitOnCharAux sep s.data [] with
  | nil => exact absurd hp (splitOnCharAux_ne_nil sep s.data [])
  | cons p ps =>
    rw [hp] at h hjoin
    cases ps with
    | nil => simp at h
    | cons q qs =>
      cases qs with
      | nil =>
        simp only [List.map_cons, List.map_nil, List.cons.injEq, and_true] at h
        obtain ⟨h1, h2⟩ := h
        have hx : x.data = p := by rw [← h1]
        have hy : y.data = q := by rw [← h2]
        rw [hx, hy]
        simp only [joinSep, List.reverse_nil, List.nil_append] at hjoin
        exact hjoin.symm
      | cons r rs =>
        simp at h

/-- The URIs of the embedded objects of an outer attribute, the only
part of the item the index builder inspects besides the item URI. -/
def embUris (item : Item) (a : String) : Option (List String) :=
  (alookup a item.embedded).map (fun objs => objs.map EmbObj.uri)

theorem find?_isSome_of_map_eq (objs1 objs2 : List EmbObj) (t : String)
    (h : objs1.map EmbObj.uri = objs2.map EmbObj.uri) :
    (objs1.find? (fun o => o.uri = t)).isSome =
      (objs2.find? (fun o => o.uri = t)).isSome := by
  induction objs1 generalizing objs2 with
  | nil =>
    cases objs2 with
    | nil => rfl
    | cons o2 rest2 => simp at h
  | cons o1 rest1 ih =>
    cases objs2 with
    | nil => simp at h
    | cons o2 rest2 =>
      simp only [List.map_cons, List.cons.injEq] at h
      obtain ⟨h1, h2⟩ := h
      by_cases ht : o1.uri = t
      · have ht2 : o2.uri = t := by rw [← h1]; exact ht
        simp [List.find?, ht, ht2]
      · have ht2 : ¬ o2.uri = t := by rw [← h1]; exact ht
        simp only [List.find?, decide_eq_false ht, decide_eq_false ht2]
        exact ih rest2 h2

theorem processIndexEntry_congr (item1 item2 : Item)
    (huri : item1.uri = item2.uri)
    (hemb : ∀ a, embUris item1 a = embUris item2 a) (idx : IndexMap) (entry : String) :
    processIndexEntry item1 idx entry = processIndexEntry item2 idx entry := by
  cases hsplit : splitOnChar '=' entry with
  | nil => simp [processIndexEntry, hsplit]
  | cons key rest =>
    cases rest with
    | nil => simp [processIndexEntry, hsplit]
    | cons uriref rest2 =>
      cases rest2 with
      | cons r rs => simp [processIndexEntry, hsplit]
      | nil =>
        cases hsearch : reSearchKey key.data with
        | none => simp [processIndexEntry, hsplit, hsearch]
        | some ai =>
          obtain ⟨attr, i⟩ := ai
          have hval := hemb attr
          unfold embUris at hval
          cases h1 : alookup attr item1.embedded with
          | none =>
            cases h2 : alookup attr item2.embedded with
            | none => simp [processIndexEntry, hsplit, hsearch, h1, h2]
            | some objs2 =>
              rw [h1, h2] at hval
              simp at hval
          | some objs1 =>
            cases h2 : alookup attr item2.embedded with
            | none =>
              rw [h1, h2] at hval
              simp at hval
            | some objs2 =>
              rw [h1, h2] at hval
              have hmap : objs1.map EmbObj.uri = objs2.map EmbObj.uri := by
                simpa using hval
              have hsame := find?_isSome_of_map_eq objs1 objs2 (item1.uri ++ uriref) hmap
              cases hf1 : objs1.find? (fun o => o.uri = item1.uri ++ uriref) with
              | none =>
                have hf2 : objs2.find? (fun o => o.uri = item2.uri ++ uriref) = none := by
                  rw [← huri]
                  rw [hf1] at hsame
                  cases hf2x : objs2.find? (fun o => o.uri = item1.uri ++ uriref) with
                  | none => rfl
                  | some ob2 =>
                    rw [hf2x] at hsame
                    simp at hsame
                have hf1x : objs1.find? (fun o => o.uri = item2.uri ++ uriref) = none := by
                  rw [← huri]
                  exact hf1
                simp [processIndexEntry, hsplit, hsearch, h1, h2, hf1x, hf2, huri]
              | some ob1 =>
                obtain ⟨ob2, hf2⟩ : ∃ ob2,
                    objs2.find? (fun o => o.uri = item2.uri ++ uriref) = some ob2 := by
                  rw [← huri]
                  rw [hf1] at hsame
                  cases hf2x : objs2.find? (fun o => o.uri = item1.uri ++ uriref) with
                  | none =>
                    rw [hf2x] at hsame
                    simp at hsame
                  | some ob2 => exact ⟨ob2, rfl⟩
                have hf1x : objs1.find? (fun o => o.uri = item2.uri ++ uriref) = some ob1 := by
                  rw [← huri]
                  exact hf1
                simp [processIndexEntry, hsplit, hsearch, h1, h2, hf1x, hf2, huri]

theorem build_lookup_index_congr (item1 item2 : Item)
    (huri : item1.uri = item2.uri)
    (hemb : ∀ a, embUris item1 a = embUris item2 a) (istr : String) :
    build_lookup_index item1 istr = build_lookup_index item2 istr := by
  unfold build_lookup_index
  have key : ∀ (entries : List String) (idx : IndexMap),
      entries.foldlM (processIndexEntry item1) idx =
        entries.foldlM (processIndexEntry item2) idx := by
    intro entries
    induction entries with
    | nil => intro idx; rfl
    | cons e rest ih =>
      intro idx
      simp only [List.foldlM_cons]
      rw [processIndexEntry_congr item1 item2 huri hemb idx e]
      cases processIndexEntry item2 idx e with
      | error e2 => rfl
      | ok idx2 => exact ih idx2
  exact key _ []

theorem objAt_eq_find (item : Item) (fa u : String) (objs : List EmbObj)
    (hobjs : alookup fa item.embedded = some objs) :
    objAt item fa u = objs.find? (fun o => o.uri = u) := by
  unfold objAt
  rw [hobjs]
  rfl

/-- Full analysis of one successful embedded-mode step: the resolved
position carries some URI, the object at that URI now holds the new
value at the head of its inner list, and everything else in the item
is untouched. -/
theorem embStep_ok_analysis (spec : PropSpec) (index : IndexMap) (fa na : String)
    (st : RowState) (i : Nat) (v : String) (st2 : RowState)
    (posmap : List (Nat × String))
    (hpos : alookup fa index = some posmap)
    (h : embStep spec index fa na st i v = Except.ok st2) :
    ∃ u, nlookup i posmap = some u ∧
      (∃ obj2 rest2, objAt st2.item fa u = some obj2 ∧
        alookup na obj2.innerAttrs = some (v :: rest2)) ∧
      (∀ u2, u2 ≠ u → objAt st2.item fa u2 = objAt st.item fa u2) ∧
      st2.item.uri = st.item.uri ∧
      st2.item.directValues = st.item.directValues ∧
      (∀ a, a ≠ fa → alookup a st2.item.embedded = alookup a st.item.embedded) ∧
      (∀ a2, embUris st2.item a2 = embUris st.item a2) ∧
      (∀ u2 obj1, objAt st.item fa u2 = some obj1 → ∃ obj2,
        objAt st2.item fa u2 = some obj2 ∧ obj2.uri = obj1.uri ∧
        ∀ a2, a2 ≠ na → alookup a2 obj2.innerAttrs = alookup a2 obj1.innerAttrs) := by
  cases hnl : nlookup i posmap with
  | none => simp [embStep, hpos, hnl] at h
  | some u =>
    cases hobjs : alookup fa st.item.embedded with
    | none => simp [embStep, hpos, hnl, hobjs] at h
    | some objs =>
      cases hfind : objs.find? (fun o => o.uri = u) with
      | none => simp [embStep, hpos, hnl, hobjs, hfind] at h
      | some obj =>
        have hpu : obj.uri = u := by
          have := List.find?_some hfind
          simpa using this
        cases hinner : alookup na obj.innerAttrs with
        | none => simp [embStep, hpos, hnl, hobjs, hfind, hinner] at h
        | some vals =>
          cases vals with
          | nil => simp [embStep, hpos, hnl, hobjs, hfind, hinner] at h
          | cons old rest =>
            by_cases hv : v = old
            · have hst : st2 = st := by
                have h2 : (Except.ok st : Except PyErr RowState) = Except.ok st2 := by
                  rw [← h]
                  simp [embStep, hpos, hnl, hobjs, hfind, hinner, hv]
                exact (Except.ok.inj h2).symm
              have hitem : st2.item = st.item := by rw [hst]
              rw [hitem]
              refine ⟨u, rfl, ⟨obj, rest, ?_, ?_⟩, fun u2 _ => rfl, rfl, rfl,
                fun a _ => rfl, fun a2 => rfl, ?_⟩
              · rw [objAt_eq_find st.item fa u objs hobjs]
                exact hfind
              · rw [hv]
                exact hinner
              · intro u2 obj1 h1
                exact ⟨obj1, h1, rfl, fun a2 _ => rfl⟩
            · have hst : st2 = RowState.mk
                  (Item.mk st.item.uri st.item.directValues
                    (aupdate fa
                      (replaceFirst (fun o => o.uri = u)
                        (EmbObj.mk obj.uri (aupdate na [v] obj.innerAttrs)) objs)
                      st.item.embedded))
                  (insert (Triple.mk obj.uri spec.predUri (spec.get_term old)) st.dg)
                  (insert (Triple.mk obj.uri spec.predUri (spec.get_term v)) st.ig) := by
                have h2 : (Except.ok (RowState.mk
                    (Item.mk st.item.uri st.item.directValues
                      (aupdate fa
                        (replaceFirst (fun o => o.uri = u)
                          (EmbObj.mk obj.uri (aupdate na [v] obj.innerAttrs)) objs)
                        st.item.embedded))
                    (insert (Triple.mk obj.uri spec.predUri (spec.get_term old)) st.dg)
                    (insert (Triple.mk obj.uri spec.predUri (spec.get_term v)) st.ig)) :
                    Except Plastron.PyErr RowState) = Except.ok st2 := by
                  rw [← h]
                  simp [embStep, hpos, hnl, hobjs, hfind, hinner, hv]
                exact (Except.ok.inj h2).symm
              have hitem : st2.item = Item.mk st.item.uri st.item.directValues
                  (aupdate fa
                    (replaceFirst (fun o => o.uri = u)
                      (EmbObj.mk obj.uri (aupdate na [v] obj.innerAttrs)) objs)
                    st.item.embedded) := by
                rw [hst]
              have hlook2 : alookup fa
                  (aupdate fa
                    (replaceFirst (fun o => o.uri = u)
                      (EmbObj.mk obj.uri (aupdate na [v] obj.innerAttrs)) objs)
                    st.item.embedded) =
                  some (replaceFirst (fun o => o.uri = u)
                    (EmbObj.mk obj.uri (aupdate na [v] obj.innerAttrs)) objs) := by
                rw [alookup_aupdate_self, hobjs]
                rfl
              have hobjAt2 : ∀ u2, objAt (Item.mk st.item.uri st.item.directValues
                  (aupdate fa
                    (replaceFirst (fun o => o.uri = u)
                      (EmbObj.mk obj.uri (aupdate na [v] obj.innerAttrs)) objs)
                    st.item.embedded)) fa u2 =
                  (replaceFirst (fun o => o.uri = u)
                    (EmbObj.mk obj.uri (aupdate na [v] obj.innerAttrs)) objs).find?
                    (fun o => o.uri = u2) := by
                intro u2
                exact objAt_eq_find _ fa u2 _ hlook2
              rw [hitem]
              refine ⟨u, rfl, ?_, ?_, rfl, rfl, ?_, ?_, ?_⟩
              · refine ⟨EmbObj.mk obj.uri (aupdate na [v] obj.innerAttrs), [], ?_, ?_⟩
                · rw [hobjAt2 u]
                  rw [find?_replaceFirst_same _ _ _ (by simp [hpu]), hfind]
                  rfl
                · have hnew : alookup na (aupdate na [v] obj.innerAttrs) = some [v] := by
                    rw [alookup_aupdate_self, hinner]
                    rfl
                  exact hnew
              · intro u2 hne
                rw [hobjAt2 u2, objAt_eq_find st.item fa u2 objs hobjs]
                apply find?_replaceFirst_ne
                · simp only [decide_eq_false_iff_not]
                  rw [show (EmbObj.mk obj.uri (aupdate na [v] obj.innerAttrs)).uri =
                    obj.uri from rfl, hpu]
                  exact fun hcon => hne hcon.symm
                · intro y hy
                  simp only [decide_eq_true_eq] at hy
                  simp only [decide_eq_false_iff_not, hy]
                  exact fun hcon => hne hcon.symm
              · intro a ha
                exact alookup_aupdate_ne _ _ (Ne.symm ha)
              · intro a2
                unfold embUris
                by_cases ha : a2 = fa
                · subst ha
                  rw [hlook2, hobjs]
                  exact congrArg some (uris_replaceFirst u _ objs hpu)
                · rw [alookup_aupdate_ne _ _ (Ne.symm ha)]
              · intro u2 obj1 h1
                by_cases hu2 : u2 = u
                · subst hu2
                  have hobj1 : obj1 = obj := by
                    rw [objAt_eq_find st.item fa u2 objs hobjs, hfind] at h1
                    exact (Option.some.inj h1).symm
                  subst hobj1
                  refine ⟨EmbObj.mk obj1.uri (aupdate na [v] obj1.innerAttrs), ?_, rfl, ?_⟩
                  · rw [hobjAt2 u2]
                    rw [find?_replaceFirst_same _ _ _ (by simp [hpu]), hfind]
                    rfl
                  · intro a2 ha2
                    exact alookup_aupdate_ne _ _ (Ne.symm ha2)
                · refine ⟨obj1, ?_, rfl, fun a2 _ => rfl⟩
                  rw [hobjAt2 u2]
                  rw [find?_replaceFirst_ne]
                  · rw [objAt_eq_find st.item fa u2 objs hobjs] at h1
                    exact h1
                  · simp only [decide_eq_false_iff_not]
                    rw [show (EmbObj.mk obj.uri (aupdate na [v] obj.innerAttrs)).uri =
                      obj.uri from rfl, hpu]
                    exact fun hcon => hu2 hcon.symm
                  · intro y hy
                    simp only [decide_eq_true_eq] at hy
                    simp only [decide_eq_false_iff_not, hy]
                    exact fun hcon => hu2 hcon.symm

/-- Positional injectivity of a lookup-index position map: distinct
positions resolve to distinct embedded-object URIs. -/
def PosInj (posmap : List (Nat × String)) : Prop :=
  ∀ j1 j2 u, nlookup j1 posmap = some u → nlookup j2 posmap = some u → j1 = j2

/-- Full analysis of one successful run of the embedded-mode loop:
every position below the length of the value list resolves, afterwards
the object at that position holds the corresponding new value at the
head of its inner list, and the rest of the item is untouched. -/
theorem embLoop_ok_analysis (spec : PropSpec) (index : IndexMap) (fa na : String)
    (posmap : List (Nat × String))
    (hpos : alookup fa index = some posmap)
    (hinj : PosInj posmap) :
    ∀ (vs : List String) (st st2 : RowState) (k : Nat),
      embLoop spec index fa na st k vs = Except.ok st2 →
      (∀ j v, vs[j]? = some v → ∃ u, nlookup (k + j) posmap = some u ∧
        ∃ obj2 rest2, objAt st2.item fa u = some obj2 ∧
          alookup na obj2.innerAttrs = some (v :: rest2)) ∧
      (∀ u2, (∀ j u3, j < vs.length → nlookup (k + j) posmap = some u3 → u2 ≠ u3) →
        objAt st2.item fa u2 = objAt st.item fa u2) ∧
      st2.item.uri = st.item.uri ∧
      st2.item.directValues = st.item.directValues ∧
      (∀ a, a ≠ fa → alookup a st2.item.embedded = alookup a st.item.embedded) ∧
      (∀ a2, embUris st2.item a2 = embUris st.item a2) ∧
      (∀ u2 obj1, objAt st.item fa u2 = some obj1 → ∃ obj2,
        objAt st2.item fa u2 = some obj2 ∧ obj2.uri = obj1.uri ∧
        ∀ a2, a2 ≠ na → alookup a2 obj2.innerAttrs = alookup a2 obj1.innerAttrs) := by
  intro vs
  induction vs with
  | nil =>
    intro st st2 k h
    have hst : st2 = st := by
      exact (Except.ok.inj (by rw [← h]; rfl)).symm
    subst hst
    refine ⟨?_, fun u2 _ => rfl, rfl, rfl, fun a _ => rfl, fun a2 => rfl, ?_⟩
    · intro j v hv
      simp at hv
    · intro u2 obj1 h1
      exact ⟨obj1, h1, rfl, fun a2 _ => rfl⟩
  | cons v vs ih =>
    intro st st2 k h
    cases hs : embStep spec index fa na st k v with
    | error e =>
      unfold embLoop at h
      rw [hs] at h
      cases h
    | ok st1 =>
      have hrest : embLoop spec index fa na st1 (k + 1) vs = Except.ok st2 := by
        unfold embLoop at h
        rw [hs] at h
        exact h
      obtain ⟨u, hnl, hhead1, hframe1, huri1, hdv1, hemb1, hview1, hpres1⟩ :=
        embStep_ok_analysis spec index fa na st k v st1 posmap hpos hs
      obtain ⟨hready, hframe2, huri2, hdv2, hemb2, hview2, hpres2⟩ :=
        ih st1 st2 (k + 1) hrest
      have huframe : objAt st2.item fa u = objAt st1.item fa u := by
        apply hframe2
        intro j u3 hj hnl3 hcon
        subst hcon
        have := hinj (k + 1 + j) k u hnl3 hnl
        omega
      refine ⟨?_, ?_, huri2.trans huri1, hdv2.trans hdv1, ?_, ?_, ?_⟩
      · intro j w hw
        cases j with
        | zero =>
          simp only [List.getElem?_cons_zero, Option.some.injEq] at hw
          subst hw
          refine ⟨u, by simpa using hnl, ?_⟩
          obtain ⟨obj2, rest2, hobj2, hinner2⟩ := hhead1
          refine ⟨obj2, rest2, ?_, hinner2⟩
          rw [huframe]
          exact hobj2
        | succ j2 =>
          simp only [List.getElem?_cons_succ] at hw
          obtain ⟨u2, hnl2, hrest2⟩ := hready j2 w hw
          refine ⟨u2, ?_, hrest2⟩
          rw [← hnl2]
          congr 1
          omega
      · intro u2 havoid
        have h1 : objAt st2.item fa u2 = objAt st1.item fa u2 := by
          apply hframe2
          intro j u3 hj hnl3
          exact havoid (j + 1) u3 (by simp; omega) (by rw [← hnl3]; congr 1; omega)
        have h2 : objAt st1.item fa u2 = objAt st.item fa u2 := by
          apply hframe1
          exact havoid 0 u (by simp) (by simpa using hnl)
        rw [h1, h2]
      · intro a ha
        rw [hemb2 a ha, hemb1 a ha]
      · intro a2
        rw [hview2 a2, hview1 a2]
      · intro u2 obj1 h1
        obtain ⟨obj2, hobj2, hu2, hinner2⟩ := hpres1 u2 obj1 h1
        obtain ⟨obj3, hobj3, hu3, hinner3⟩ := hpres2 u2 obj2 hobj2
        refine ⟨obj3, hobj3, hu3.trans hu2, ?_⟩
        intro a2 ha2
        rw [hinner3 a2 ha2, hinner2 a2 ha2]

/-- When every position of the candidate list already resolves to an
object whose inner value equals the candidate value, the embedded loop
is a complete no-op. -/
theorem embLoop_noop (spec : PropSpec) (index : IndexMap) (fa na : String)
    (posmap : List (Nat × String)) (hpos : alookup fa index = some posmap) :
    ∀ (vs : List String) (st : RowState) (k : Nat),
      (∀ j v, vs[j]? = some v → ∃ u obj rest,
        nlookup (k + j) posmap = some u ∧ objAt st.item fa u = some obj ∧
        alookup na obj.innerAttrs = some (v :: rest)) →
      embLoop spec index fa na st k vs = Except.ok st := by
  intro vs
  induction vs with
  | nil =>
    intro st k hready
    rfl
  | cons v vs ih =>
    intro st k hready
    obtain ⟨u, obj, rest, hnl, hobj, hinner⟩ := hready 0 v (by simp)
    have hnlk : nlookup k posmap = some u := by simpa using hnl
    obtain ⟨objs, hl, hfind⟩ : ∃ objs, alookup fa st.item.embedded = some objs ∧
        objs.find? (fun o => o.uri = u) = some obj := by
      unfold objAt at hobj
      cases hl2 : alookup fa st.item.embedded with
      | none =>
        rw [hl2] at hobj
        simp at hobj
      | some objs =>
        rw [hl2] at hobj
        exact ⟨objs, rfl, hobj⟩
    have hstep : embStep spec index fa na st k v = Except.ok st := by
      simp [embStep, hpos, hnlk, hl, hfind, hinner]
    unfold embLoop
    rw [hstep]
    apply ih
    intro j w hw
    obtain ⟨u2, obj2, rest2, hnl2, hobj2, hinner2⟩ :=
      hready (j + 1) w (by simpa using hw)
    refine ⟨u2, obj2, rest2, ?_, hobj2, hinner2⟩
    rw [← hnl2]
    congr 1
    omega

/-- Success inversion for the per-property loop body: the exact shape
of the state it returns in each of its three successful branches. -/
theorem processProp_ok_cases (specs : List (String × PropSpec)) (index : IndexMap)
    (row : List (String × String)) (st : RowState) (hp : String × String)
    (st2 : RowState)
    (h : processProp specs index row st hp = Except.ok st2) :
    ∃ spec cell, alookup hp.2 specs = some spec ∧ alookup hp.1 row = some cell ∧
      (('.' ∉ hp.2.data ∧ ∃ oldValues,
          alookup hp.2 st.item.directValues = some oldValues ∧
          st2 = RowState.mk
            (Item.mk st.item.uri
              (aupdate hp.2 (parseCellValues cell) st.item.directValues)
              st.item.embedded)
            (st.dg ∪ directTriples st.item.uri spec
              (oldValues.toFinset \ (parseCellValues cell).toFinset))
            (st.ig ∪ directTriples st.item.uri spec
              ((parseCellValues cell).toFinset \ oldValues.toFinset))) ∨
       ('.' ∈ hp.2.data ∧ ∃ fa na, splitOnChar '.' hp.2 = [fa, na] ∧
          ((alookup fa index = none ∧ st2 = st) ∨
           (∃ posmap, alookup fa index = some posmap ∧
            embLoop spec index fa na st 0 (parseCellValues cell) = Except.ok st2)))) := by
  cases hspec : alookup hp.2 specs with
  | none => simp [processProp, hspec] at h
  | some spec =>
    cases hcell : alookup hp.1 row with
    | none => simp [processProp, hspec, hcell] at h
    | some cell =>
      refine ⟨spec, cell, rfl, rfl, ?_⟩
      by_cases hdot : '.' ∈ hp.2.data
      · refine Or.inr ⟨hdot, ?_⟩
        cases hsplit : splitOnChar '.' hp.2 with
        | nil => simp [processProp, hspec, hcell, hdot, hsplit] at h
        | cons fa rest1 =>
          cases rest1 with
          | nil => simp [processProp, hspec, hcell, hdot, hsplit] at h
          | cons na rest2 =>
            cases rest2 with
            | cons r rs => simp [processProp, hspec, hcell, hdot, hsplit] at h
            | nil =>
              refine ⟨fa, na, rfl, ?_⟩
              cases hfi : alookup fa index with
              | none =>
                refine Or.inl ⟨rfl, ?_⟩
                have h2 : (Except.ok st : Except PyErr RowState) = Except.ok st2 := by
                  rw [← h]
                  simp [processProp, hspec, hcell, hdot, hsplit, hfi]
                exact (Except.ok.inj h2).symm
              | some posmap =>
                refine Or.inr ⟨posmap, rfl, ?_⟩
                rw [← h]
                simp [processProp, hspec, hcell, hdot, hsplit, hfi]
      · refine Or.inl ⟨hdot, ?_⟩
        cases hold : alookup hp.2 st.item.directValues with
        | none => simp [processProp, hspec, hcell, hdot, hold] at h
        | some oldValues =>
          refine ⟨oldValues, rfl, ?_⟩
          have h2 : (Except.ok (RowState.mk
              (Item.mk st.item.uri
                (aupdate hp.2 (parseCellValues cell) st.item.directValues)
                st.item.embedded)
              (st.dg ∪ directTriples st.item.uri spec
                (oldValues.toFinset \ (parseCellValues cell).toFinset))
              (st.ig ∪ directTriples st.item.uri spec
                ((parseCellValues cell).toFinset \ oldValues.toFinset))) :
              Except PyErr RowState) = Except.ok st2 := by
            rw [← h]
            simp [processProp, hspec, hcell, hdot, hold]
          exact (Except.ok.inj h2).symm

/-- A property is reconciled in an item when the row's parsed cell
values already agree with the in-memory state: for a direct property
the value list equals the parsed list; for an embedded property either
the outer attribute is not indexed, or every candidate position
resolves to an object whose inner value list starts with the candidate
value. -/
def PropReady (specs : List (String × PropSpec)) (index : IndexMap)
    (row : List (String × String)) (item : Item) (hp : String × String) : Prop :=
  ∃ spec cell, alookup hp.2 specs = some spec ∧ alookup hp.1 row = some cell ∧
    (('.' ∉ hp.2.data ∧ alookup hp.2 item.directValues = some (parseCellValues cell)) ∨
     ('.' ∈ hp.2.data ∧ ∃ fa na, splitOnChar '.' hp.2 = [fa, na] ∧
       (alookup fa index = none ∨
        (∃ posmap, alookup fa index = some posmap ∧
          ∀ j v, (parseCellValues cell)[j]? = some v → ∃ u obj rest,
            nlookup j posmap = some u ∧ objAt item fa u = some obj ∧
            alookup na obj.innerAttrs = some (v :: rest)))))

/-- Processing a reconciled property is a complete no-op. -/
theorem processProp_noop (specs : List (String × PropSpec)) (index : IndexMap)
    (row : List (String × String)) (st : RowState) (hp : String × String)
    (hkeys : (st.item.directValues.map Prod.fst).Nodup)
    (hready : PropReady specs index row st.item hp) :
    processProp specs index row st hp = Except.ok st := by
  obtain ⟨spec, cell, hspec, hcell, hcase⟩ := hready
  rcases hcase with ⟨hdot, hold⟩ | ⟨hdot, fa, na, hsplit, hcase2⟩
  · have hupd : aupdate hp.2 (parseCellValues cell) st.item.directValues =
        st.item.directValues := aupdate_eq_self_of_lookup hkeys hold
    simp [processProp, hspec, hcell, hdot, hold, hupd, directTriples]
  · rcases hcase2 with hnone | ⟨posmap, hpos, hready2⟩
    · simp [processProp, hspec, hcell, hdot, hsplit, hnone]
    · have hloop : embLoop spec index fa na st 0 (parseCellValues cell) =
          Except.ok st := by
        apply embLoop_noop spec index fa na posmap hpos
        intro j v hv
        obtain ⟨u, obj, rest, h1, h2, h3⟩ := hready2 j v hv
        exact ⟨u, obj, rest, by simpa using h1, h2, h3⟩
      simp [processProp, hspec, hcell, hdot, hsplit, hpos, hloop]

/-- Processing a property reconciles it. -/
theorem processProp_establish (specs : List (String × PropSpec)) (index : IndexMap)
    (row : List (String × String)) (st st2 : RowState) (hp : String × String)
    (hinj : ∀ a pm, alookup a index = some pm → PosInj pm)
    (h : processProp specs index row st hp = Except.ok st2) :
    PropReady specs index row st2.item hp := by
  obtain ⟨spec, cell, hspec, hcell, hcase⟩ :=
    processProp_ok_cases specs index row st hp st2 h
  rcases hcase with ⟨hdot, oldValues, hold, hst⟩ | ⟨hdot, fa, na, hsplit, hcase2⟩
  · refine ⟨spec, cell, hspec, hcell, Or.inl ⟨hdot, ?_⟩⟩
    rw [hst]
    show alookup hp.2 (aupdate hp.2 (parseCellValues cell) st.item.directValues) =
      some (parseCellValues cell)
    rw [alookup_aupdate_self, hold]
    rfl
  · refine ⟨spec, cell, hspec, hcell, Or.inr ⟨hdot, fa, na, hsplit, ?_⟩⟩
    rcases hcase2 with ⟨hnone, _⟩ | ⟨posmap, hpos, hloop⟩
    · exact Or.inl hnone
    · refine Or.inr ⟨posmap, hpos, ?_⟩
      obtain ⟨hready, _, _, _, _, _, _⟩ :=
        embLoop_ok_analysis spec index fa na posmap hpos (hinj fa posmap hpos)
          (parseCellValues cell) st st2 0 hloop
      intro j v hv
      obtain ⟨u, hnl, obj2, rest2, hobj2, hinner2⟩ := hready j v hv
      exact ⟨u, obj2, rest2, by simpa using hnl, hobj2, hinner2⟩

/-- Processing one property does not unreconcile a property with a
different attribute path. -/
theorem processProp_preserves_ready (specs : List (String × PropSpec)) (index : IndexMap)
    (row : List (String × String)) (st st2 : RowState) (hp q : String × String)
    (hne : q.2 ≠ hp.2)
    (hinj : ∀ a pm, alookup a index = some pm → PosInj pm)
    (h : processProp specs index row st q = Except.ok st2)
    (hready : PropReady specs index row st.item hp) :
    PropReady specs index row st2.item hp := by
  obtain ⟨spec, cell, hspec, hcell, hcase⟩ := hready
  obtain ⟨specq, cellq, hspecq, hcellq, hcaseq⟩ :=
    processProp_ok_cases specs index row st q st2 h
  refine ⟨spec, cell, hspec, hcell, ?_⟩
  rcases hcase with ⟨hdot, hold⟩ | ⟨hdot, fa, na, hsplit, hcase2⟩
  · refine Or.inl ⟨hdot, ?_⟩
    rcases hcaseq with ⟨hdotq, oldq, holdq, hst⟩ | ⟨hdotq, faq, naq, hsplitq, hcaseq2⟩
    · rw [hst]
      show alookup hp.2 (aupdate q.2 (parseCellValues cellq) st.item.directValues) =
        some (parseCellValues cell)
      rw [alookup_aupdate_ne _ _ hne]
      exact hold
    · rcases hcaseq2 with ⟨_, hst⟩ | ⟨posmapq, hposq, hloopq⟩
      · rw [hst]
        exact hold
      · obtain ⟨_, _, _, hdv, _, _, _⟩ :=
          embLoop_ok_analysis specq index faq naq posmapq hposq (hinj _ _ hposq)
            (parseCellValues cellq) st st2 0 hloopq
        rw [hdv]
        exact hold
  · refine Or.inr ⟨hdot, fa, na, hsplit, ?_⟩
    rcases hcase2 with hnone | ⟨posmap, hpos, hready2⟩
    · exact Or.inl hnone
    · refine Or.inr ⟨posmap, hpos, ?_⟩
      rcases hcaseq with ⟨hdotq, oldq, holdq, hst⟩ | ⟨hdotq, faq, naq, hsplitq, hcaseq2⟩
      · rw [hst]
        intro j v hv
        obtain ⟨u, obj, rest, h1, h2, h3⟩ := hready2 j v hv
        exact ⟨u, obj, rest, h1, h2, h3⟩
      · rcases hcaseq2 with ⟨_, hst⟩ | ⟨posmapq, hposq, hloopq⟩
        · rw [hst]
          exact hready2
        · obtain ⟨_, _, _, _, hembq, _, hpresq⟩ :=
            embLoop_ok_analysis specq index faq naq posmapq hposq (hinj _ _ hposq)
              (parseCellValues cellq) st st2 0 hloopq
          by_cases hfa : fa = faq
          · subst hfa
            have hnane : na ≠ naq := by
              intro hcon
              have e1 := splitOnChar_eq_two '.' hp.2 fa na hsplit
              have e2 := splitOnChar_eq_two '.' q.2 fa naq hsplitq
              apply hne
              apply String.ext
              rw [e2, e1, hcon]
            intro j v hv
            obtain ⟨u, obj, rest, h1, h2, h3⟩ := hready2 j v hv
            obtain ⟨obj2, hobj2, hu2, hinner2⟩ := hpresq u obj h2
            refine ⟨u, obj2, rest, h1, hobj2, ?_⟩
            rw [hinner2 na hnane]
            exact h3
          · intro j v hv
            obtain ⟨u, obj, rest, h1, h2, h3⟩ := hready2 j v hv
            refine ⟨u, obj, rest, h1, ?_, h3⟩
            unfold objAt
            rw [hembq fa hfa]
            unfold objAt at h2
            exact h2

theorem foldlM_preserves_ready (specs : List (String × PropSpec)) (index : IndexMap)
    (row : List (String × String)) (hp : String × String)
    (hinj : ∀ a pm, alookup a index = some pm → PosInj pm) :
    ∀ (ps : List (String × String)) (st st2 : RowState),
      ps.foldlM (processProp specs index row) st = Except.ok st2 →
      (∀ r ∈ ps, r.2 ≠ hp.2) →
      PropReady specs index row st.item hp →
      PropReady specs index row st2.item hp := by
  intro ps
  induction ps with
  | nil =>
    intro st st2 h _ hready
    have hst : st2 = st := (Except.ok.inj (by rw [← h]; rfl)).symm
    rw [hst]
    exact hready
  | cons q ps ih =>
    intro st st2 h hne hready
    cases hs : processProp specs index row st q with
    | error e =>
      rw [List.foldlM_cons, hs] at h
      cases h
    | ok st1 =>
      have hrest : ps.foldlM (processProp specs index row) st1 = Except.ok st2 := by
        rw [List.foldlM_cons, hs] at h
        exact h
      exact ih st1 st2 hrest (fun r hr => hne r (by simp [hr]))
        (processProp_preserves_ready specs index row st st1 hp q (hne q (by simp))
          hinj hs hready)

/-- A fold over reconciled properties is a complete no-op. -/
theorem foldlM_noop (specs : List (String × PropSpec)) (index : IndexMap)
    (row : List (String × String)) :
    ∀ (ps : List (String × String)) (st : RowState),
      (∀ hp ∈ ps, PropReady specs index row st.item hp) →
      (st.item.directValues.map Prod.fst).Nodup →
      ps.foldlM (processProp specs index row) st = Except.ok st := by
  intro ps
  induction ps with
  | nil =>
    intro st _ _
    rfl
  | cons hp ps ih =>
    intro st hready hkeys
    have hstep := processProp_noop specs index row st hp hkeys (hready hp (by simp))
    rw [List.foldlM_cons, hstep]
    exact ih st (fun q hq => hready q (by simp [hq])) hkeys

/-- A successful first pass over all properties reconciles all of
them, and only redistributes values: URI, attribute keys and the
embedded-object URI lists are unchanged. -/
theorem foldlM_establish (specs : List (String × PropSpec)) (index : IndexMap)
    (row : List (String × String))
    (hinj : ∀ a pm, alookup a index = some pm → PosInj pm) :
    ∀ (ps : List (String × String)) (st st2 : RowState),
      ps.foldlM (processProp specs index row) st = Except.ok st2 →
      (ps.map Prod.snd).Nodup →
      (∀ hp ∈ ps, PropReady specs index row st2.item hp) ∧
      st2.item.uri = st.item.uri ∧
      st2.item.directValues.map Prod.fst = st.item.directValues.map Prod.fst ∧
      (∀ a, embUris st2.item a = embUris st.item a) := by
  intro ps
  induction ps with
  | nil =>
    intro st st2 h _
    have hst : st2 = st := (Except.ok.inj (by rw [← h]; rfl)).symm
    rw [hst]
    exact ⟨fun hp hmem => absurd hmem (by simp), rfl, rfl, fun a => rfl⟩
  | cons hp ps ih =>
    intro st st2 h hnd
    cases hs : processProp specs index row st hp with
    | error e =>
      rw [List.foldlM_cons, hs] at h
      cases h
    | ok st1 =>
      have hrest : ps.foldlM (processProp specs index row) st1 = Except.ok st2 := by
        rw [List.foldlM_cons, hs] at h
        exact h
      simp only [List.map_cons, List.nodup_cons] at hnd
      obtain ⟨hready2, huri2, hdv2, hview2⟩ := ih st1 st2 hrest hnd.2
      have hstepview : st1.item.uri = st.item.uri ∧
          st1.item.directValues.map Prod.fst = st.item.directValues.map Prod.fst ∧
          (∀ a, embUris st1.item a = embUris st.item a) := by
        obtain ⟨spec, cell, _, _, hcase⟩ :=
          processProp_ok_cases specs index row st hp st1 hs
        rcases hcase with ⟨hdot, old, hold, hst⟩ | ⟨hdot, fa, na, hsplit, hcase2⟩
        · rw [hst]
          exact ⟨rfl, keys_aupdate _ _ _, fun a => rfl⟩
        · rcases hcase2 with ⟨_, hst⟩ | ⟨posmap, hpos, hloop⟩
          · rw [hst]
            exact ⟨rfl, rfl, fun a => rfl⟩
          · obtain ⟨_, _, huri, hdv, _, hview, _⟩ :=
              embLoop_ok_analysis spec index fa na posmap hpos (hinj _ _ hpos)
                (parseCellValues cell) st st1 0 hloop
            refine ⟨huri, ?_, hview⟩
            rw [hdv]
      refine ⟨?_, huri2.trans hstepview.1, hdv2.trans hstepview.2.1,
        fun a => (hview2 a).trans (hstepview.2.2 a)⟩
      intro q hq
      rcases List.mem_cons.mp hq with heq | hmem
      · subst heq
        have h1 : PropReady specs index row st1.item q :=
          processProp_establish specs index row st st1 q hinj hs
        exact foldlM_preserves_ready specs index row q hinj ps st1 st2 hrest
          (fun r hr hcon => hnd.1 (by rw [← hcon]; exact List.mem_map_of_mem Prod.snd hr))
          h1
      · exact hready2 q hmem

/-- Claim C5: running the per-row diff a second time on the state
produced by a successful first run, with the same row, the same cells
and no intervening repository update, yields empty delete and insert
graphs (the diff is idempotent once values are reconciled).  The
well-formedness hypotheses state that attribute paths and attribute
keys are unique (they come from Python dicts and object attributes)
and that distinct index positions resolve to distinct embedded-object
URIs (the data-model invariant that position i resolves to exactly one
embedded object). -/
theorem C5_idempotent (specs : List (String × PropSpec)) (pattrs : List (String × String))
    (item : Item) (row : List (String × String)) (istr : String)
    (index : IndexMap) (res : RowResult)
    (hb : build_lookup_index item istr = Except.ok index)
    (hinj : ∀ a pm, alookup a index = some pm → PosInj pm)
    (hattrs : (pattrs.map Prod.snd).Nodup)
    (hkeys : (item.directValues.map Prod.fst).Nodup)
    (h : diffRow specs pattrs item row istr = Except.ok res) :
    diffRow specs pattrs res.item row istr = Except.ok (RowResult.mk res.item ∅ ∅) := by
  rw [diffRow_eq specs pattrs item row istr index hb] at h
  cases hf : pattrs.foldlM (processProp specs index row) (RowState.mk item ∅ ∅) with
  | error e =>
    rw [hf] at h
    cases h
  | ok st =>
    rw [hf] at h
    have hres : res = RowResult.mk st.item (cancelPass st.dg st.ig).1
        (cancelPass st.dg st.ig).2 := (Except.ok.inj h).symm
    have hresitem : res.item = st.item := by rw [hres]
    obtain ⟨hready, huri, hdvkeys, hview⟩ :=
      foldlM_establish specs index row hinj pattrs (RowState.mk item ∅ ∅) st hf hattrs
    have hb2 : build_lookup_index st.item istr = Except.ok index := by
      rw [build_lookup_index_congr st.item item huri hview]
      exact hb
    have hkeys2 : (st.item.directValues.map Prod.fst).Nodup := by
      rw [hdvkeys]
      exact hkeys
    rw [hresitem]
    rw [diffRow_eq specs pattrs st.item row istr index hb2]
    have hnoop : pattrs.foldlM (processProp specs index row) (RowState.mk st.item ∅ ∅) =
        Except.ok (RowState.mk st.item ∅ ∅) := by
      apply foldlM_noop
      · intro hp hmem
        exact hready hp hmem
      · exact hkeys2
    rw [hnoop]
    simp [cancelPass]

def pattrsW5 : List (String × String) := [("Title", "title"), ("Part Label", "part.label")]

def rowW5 : List (String × String) :=
  [("URI", "u"), ("INDEX", "part[0]=/p"), ("Title", "B"), ("Part Label", "M1")]

def resW5 : RowResult :=
  RowResult.mk
    (Item.mk "u" [("title", ["B"])] [("part", [EmbObj.mk "u/p" [("label", ["M1"])]])])
    {Triple.mk "u" "dc:title" (Term.lit "A"), Triple.mk "u/p" "dc:label" (Term.lit "L1")}
    {Triple.mk "u" "dc:title" (Term.lit "B"), Triple.mk "u/p" "dc:label" (Term.lit "M1")}

theorem posInj_singleton (v : String) : PosInj [(0, v)] := by
  intro j1 j2 u h1 h2
  have e1 : j1 = 0 := by
    by_cases hj : (0 : Nat) = j1
    · omega
    · simp [nlookup, hj] at h1
  have e2 : j2 = 0 := by
    by_cases hj : (0 : Nat) = j2
    · omega
    · simp [nlookup, hj] at h2
  omega

theorem posInjW : ∀ a pm, alookup a indexW = some pm → PosInj pm := by
  intro a pm h
  by_cases ha : ("part" : String) = a
  · simp only [indexW, alookup, if_pos ha, Option.some.injEq] at h
    rw [← h]
    exact posInj_singleton "u/p"
  · simp only [indexW, alookup, if_neg ha] at h
    cases h

theorem C5_witness :
    diffRow specsW pattrsW5 resW5.item rowW5 "part[0]=/p" =
      Except.ok (RowResult.mk resW5.item ∅ ∅) :=
  C5_idempotent specsW pattrsW5 itemW rowW5 "part[0]=/p" indexW resW5
    (by decide) posInjW (by decide) (by decide) (by decide)

end Plastron
